import Mathlib

/-!
Shallow embedding of the grid-compositing engine of the puzzle-grid
repository (two near-duplicate engines: `puzzle-ultimate` with its
canvas service in `part_001`, and `puzzle-ultimate-ikko` with
`utils/canvasUtils.ts`), together with proofs about the behaviour the
specification describes: the index parser, the dimension planner, the
batch partitioner, the strip-and-repack exclusion filter, per-cell
placement and masking, the export-format choice, the vertical-combine
downscale, the cancellation behaviour of a generation run, and the
duplicate remover.

Conventions: JavaScript numbers that only ever hold integers are
modelled as `ℕ`/`ℤ`; genuinely fractional values (aspect ratios, scale
factors, the unfloored cell height of the auto-row computation) are
modelled as `ℚ`, with `Math.floor` becoming `Int.floor`.
-/

namespace PuzzleGrid

/-! ### Index parser (`parseMaskIndices`)

The function is textually identical in the two engines
(`utils/canvasUtils.ts` lines 23-45 and `part_001` lines 13-35), so it
is embedded once. -/

/-- Separator class of the splitter regex `[,，、\s]+`: half- or
full-width comma, Chinese enumeration comma, or whitespace. -/
def isSeparatorChar (ch : Char) : Bool :=
  ch = ',' || ch = '，' || ch = '、' || ch.isWhitespace

/-- Split a character list at every character satisfying `p`, keeping the
(possibly empty) fragments between separators, as JavaScript
`String.split` does.  The engine's regex collapses runs of separators,
which produces extra empty fragments here instead; the parser skips
empty fragments either way (`if (!part) return`), so the two agree. -/
def splitOnPred (p : Char → Bool) : List Char → List (List Char)
  | [] => [[]]
  | ch :: rest =>
    match splitOnPred p rest, p ch with
    | r, true => [] :: r
    | [], false => [[ch]]
    | t :: ts, false => (ch :: t) :: ts

/-- JavaScript `String.prototype.trim`: strip whitespace at both ends. -/
def trimChars (cs : List Char) : List Char :=
  ((cs.dropWhile Char.isWhitespace).reverse.dropWhile Char.isWhitespace).reverse

/-- Normalisation `part.replace(/[~—–]/g, '-')`: tilde, em-dash and
en-dash all become an ASCII hyphen. -/
def normalizeDashChar (ch : Char) : Char :=
  if ch = '~' || ch = '—' || ch = '–' then '-' else ch

/-- Value of a string of decimal digits, most significant first. -/
def digitsToNat (ds : List Char) : ℕ :=
  ds.foldl (fun acc ch => acc * 10 + (ch.toNat - 48)) 0

/-- Unsigned core of JavaScript `parseInt`: read the longest leading run
of decimal digits; `none` (NaN) when there is none. -/
def parseIntDigits (cs : List Char) : Option ℤ :=
  let ds := cs.takeWhile Char.isDigit
  if ds.isEmpty then none else some ((digitsToNat ds : ℕ) : ℤ)

/-- JavaScript `parseInt(s)` restricted to decimal input: skip leading
whitespace, accept an optional sign, then the leading digit run; `none`
models NaN. -/
def parseIntJS (cs : List Char) : Option ℤ :=
  match cs.dropWhile Char.isWhitespace with
  | '-' :: rest => (parseIntDigits rest).map (fun n => -n)
  | '+' :: rest => parseIntDigits rest
  | other => parseIntDigits other

/-- The list `[lo, lo+1, ..., hi]` pushed by the parser's range loop
`for (let k = min; k <= max; k++)`. -/
def intRangeList (lo hi : ℤ) : List ℤ :=
  (List.range (hi + 1 - lo).toNat).map (fun k => lo + (k : ℤ))

/-- Handling of one fragment of the split input, mirroring the body of
the `parts.forEach` loop: trim, skip empties, normalise dashes, treat a
fragment with exactly one `-` delimiter as an inclusive range between
`min` and `max` of its endpoints, a fragment with no `-` as a single
integer, and silently drop everything malformed. -/
def parseToken (acc : List ℤ) (fragment : List Char) : List ℤ :=
  let part := trimChars fragment
  if part.isEmpty then acc
  else
    let standardPart := part.map normalizeDashChar
    if standardPart.contains '-' then
      match splitOnPred (fun ch => ch = '-') standardPart with
      | [a, b] =>
        match parseIntJS a, parseIntJS b with
        | some s, some e => acc ++ intRangeList (min s e) (max s e)
        | _, _ => acc
      | _ => acc
    else
      match parseIntJS standardPart with
      | some n => acc ++ [n]
      | none => acc

/-- `parseMaskIndices`: split the free-text index specification on the
separator class and fold every fragment through `parseToken`.  Returns
the pushed indices in encounter order (the engines use a plain array,
so duplicates are possible; membership is what the callers test). -/
def parseMaskIndices (s : String) : List ℤ :=
  (splitOnPred isSeparatorChar s.toList).foldl parseToken []

/-! ### Dimension planner -/

/-- Maximum safe canvas dimension of the ikko engine
(`canvasUtils.ts` line 3). -/
def MAX_CANVAS_DIMENSION : ℤ := 8192

/-- Cell width chosen by `calculateCellDimensions` (`canvasUtils.ts`
lines 223-227): preferred width 1500, shrunk to
`floor((8192 - cols*gap) / cols)` when `cols * 1500` exceeds the safe
dimension. -/
def calcCellW (cols gap : ℤ) : ℤ :=
  if cols * 1500 > MAX_CANVAS_DIMENSION then
    ⌊((MAX_CANVAS_DIMENSION - cols * gap : ℤ) : ℚ) / (cols : ℚ)⌋
  else 1500

/-- `calculateCellDimensions` (`canvasUtils.ts` lines 223-230): the cell
width above paired with `cellH = floor(cellW / ratio)`. -/
def calculateCellDimensions (cols : ℤ) (ratio : ℚ) (gap : ℤ) : ℤ × ℤ :=
  (calcCellW cols gap, ⌊(calcCellW cols gap : ℚ) / ratio⌋)

/-- Safe-height constant of the auto-row branch of `startGeneration`
(puzzle-ultimate `App.tsx` line 447). -/
def SAFE_H : ℚ := 15500

/-- Cell-width estimate inside the auto-row branch (puzzle-ultimate
`App.tsx` lines 446-453), which mirrors the canvas service but against
the larger 12000 limit. -/
def puAutoCellW (cols gap : ℤ) : ℤ :=
  if cols * 1500 > 12000 then
    ⌊((12000 - cols * gap : ℤ) : ℚ) / (cols : ℚ)⌋
  else 1500

/-- Core of the automatic row count (puzzle-ultimate `App.tsx` lines
454-458): `Math.max(1, Math.floor((SAFE_H + gap) / (cH + gap)))`, where
`cH` is the unfloored cell height `cW / aspectRatio`. -/
def autoRowsFromCellHeight (cH gap : ℚ) : ℤ :=
  max 1 ⌊(SAFE_H + gap) / (cH + gap)⌋

/-- Full auto-row computation for `groupRows = 0` (puzzle-ultimate
`App.tsx` lines 445-459). -/
def autoGroupRows (cols gap : ℤ) (aspectRatio : ℚ) : ℤ :=
  autoRowsFromCellHeight ((puAutoCellW cols gap : ℚ) / aspectRatio) (gap : ℚ)

/-! ### Batch partitioner -/

/-- `Math.ceil(n / batchSize)` on natural inputs with `batchSize ≥ 1`,
as computed for `totalBatches` in both engines. -/
def totalBatches (n batchSize : ℕ) : ℕ :=
  (n + batchSize - 1) / batchSize

/-- The batch slices of a generation run: page `b` is
`targets.slice(b*batchSize, min((b+1)*batchSize, targets.length))`
(puzzle-ultimate `App.tsx` line 486 and ikko `App.tsx` line 438),
i.e. drop `b*batchSize` then take `batchSize`. -/
def batchPages {α : Type} (targets : List α) (batchSize : ℕ) : List (List α) :=
  (List.range (totalBatches targets.length batchSize)).map
    (fun b => (targets.drop (b * batchSize)).take batchSize)

/-! ### Strip-and-repack exclusion filter -/

/-- The repack filter
`targets.filter((_, i) => !maskIndices.includes(startNumber + i))`
(ikko `App.tsx` lines 414-416; puzzle-ultimate `App.tsx` lines 436-438
filters the index list the same way). -/
def repackFilter {α : Type} (targets : List α) (startNumber : ℤ)
    (maskIndices : List ℤ) : List α :=
  ((targets.enum.filter
      (fun p => !(maskIndices.contains (startNumber + (p.1 : ℤ))))).map Prod.snd)

/-- Positional restatement of the specification's strip-and-repack
wording: walk the gallery keeping a running position, and remove
exactly the items whose sequence number `startNumber + position` is in
the mask set, keeping everything else in order.  Used to check that
`repackFilter` refines this description. -/
def stripRepackSpec {α : Type} (startNumber : ℤ) (maskIndices : List ℤ) :
    ℕ → List α → List α
  | _, [] => []
  | i, x :: xs =>
    if maskIndices.contains (startNumber + (i : ℤ)) then
      stripRepackSpec startNumber maskIndices (i + 1) xs
    else
      x :: stripRepackSpec startNumber maskIndices (i + 1) xs

/-! ### Per-cell placement and masking of the page compositor -/

/-- What one cell of a page render receives: its grid coordinates, its
pixel origin, its sequence number, and whether the mask decoration is
drawn on it. -/
structure CellPlan where
  row : ℕ
  col : ℕ
  x : ℤ
  y : ℤ
  num : ℤ
  masked : Bool
deriving DecidableEq

/-- Per-cell decision of `drawAsync` in the puzzle-ultimate engine
(`part_001` lines 143-147 and 226): `r = floor(i / cols)`,
`c = i mod cols`, origin `(c*(w+gap), r*(h+gap))`, sequence number
`startNumber + globalOffset + i`, and the mask drawn exactly when that
number is in `maskIndices`. -/
def planCellPU (cols : ℕ) (cellW cellH gap : ℤ) (startNumber globalOffset : ℤ)
    (maskIndices : List ℤ) (i : ℕ) : CellPlan :=
  { row := i / cols
    col := i % cols
    x := ((i % cols : ℕ) : ℤ) * (cellW + gap)
    y := ((i / cols : ℕ) : ℤ) * (cellH + gap)
    num := startNumber + globalOffset + (i : ℤ)
    masked := maskIndices.contains (startNumber + globalOffset + (i : ℤ)) }

/-- Cell plans of one whole page in the puzzle-ultimate engine, in
gallery order. -/
def renderPlanPU (n cols : ℕ) (cellW cellH gap : ℤ)
    (startNumber globalOffset : ℤ) (maskIndices : List ℤ) : List CellPlan :=
  (List.range n).map (planCellPU cols cellW cellH gap startNumber globalOffset maskIndices)

/-- Per-cell decision of `drawAsync` in the ikko engine
(`canvasUtils.ts` lines 85-197): identical placement and numbering, but
the mask is drawn only when the caller's `applyMask` flag is set
(line 176, `applyMask && maskIndices.includes(currentNum)`). -/
def planCellIkko (cols : ℕ) (w h gap : ℤ) (startNum globalOffset : ℤ)
    (maskIndices : List ℤ) (applyMask : Bool) (i : ℕ) : CellPlan :=
  { row := i / cols
    col := i % cols
    x := ((i % cols : ℕ) : ℤ) * (w + gap)
    y := ((i / cols : ℕ) : ℤ) * (h + gap)
    num := startNum + globalOffset + (i : ℤ)
    masked := applyMask && maskIndices.contains (startNum + globalOffset + (i : ℤ)) }

/-! ### Page-encoder format choice -/

/-- Outcome of the `canvas.toBlob` call: the MIME type and, for the
lossy format, the quality ratio passed to the encoder (`none` for the
lossless format, where the argument is `undefined`). -/
structure EncodeChoice where
  mime : String
  ratio : Option ℚ
deriving DecidableEq

/-- Format choice of the ikko engine (`App.tsx` lines 430-431 and 459):
clamp `exportQuality` above 100 down to 100, use PNG exactly when the
clamped value is 100, otherwise JPEG at `value / 100`. -/
def encodeChoiceIkko (exportQuality : ℤ) : EncodeChoice :=
  let qualityVal : ℤ := if exportQuality > 100 then 100 else exportQuality
  if qualityVal = 100 then { mime := "image/png", ratio := none }
  else { mime := "image/jpeg", ratio := some ((qualityVal : ℚ) / 100) }

/-- Format choice of the puzzle-ultimate engine (`App.tsx` lines
472-474): PNG exactly when the quality PRESET string is `"1.0"`,
regardless of the numeric `quality` value; otherwise JPEG at
`quality / 100`. -/
def encodeChoicePU (qualityPreset : String) (quality : ℤ) : EncodeChoice :=
  if qualityPreset = "1.0" then { mime := "image/png", ratio := none }
  else { mime := "image/jpeg", ratio := some ((quality : ℚ) / 100) }

/-! ### Vertical combine downscale -/

/-- Sizing decision of the combine branch of `handleDownload`
(puzzle-ultimate `App.tsx` lines 596-613).  `scaleP` stands for the
value `Math.sqrt(PIXEL_LIMIT / (maxW * totalH))` the code computes;
that square root is irrational in general, so it enters the model as a
parameter rather than a closed form.  When either safety limit is
exceeded the scale becomes `min(28000 / totalH, scaleP)` and both final
dimensions are floors of the original dimensions times that one
scale. -/
structure CombinePlan where
  scale : ℚ
  finalW : ℤ
  finalH : ℤ

def combinePlan (maxW totalH : ℕ) (scaleP : ℚ) : CombinePlan :=
  if 28000 < (totalH : ℚ) ∨ 80000000 < (maxW : ℚ) * (totalH : ℚ) then
    let scale := min (28000 / (totalH : ℚ)) scaleP
    { scale := scale
      finalW := ⌊(maxW : ℚ) * scale⌋
      finalH := ⌊(totalH : ℚ) * scale⌋ }
  else
    { scale := 1, finalW := (maxW : ℤ), finalH := (totalH : ℤ) }

/-! ### Generation run with cooperative cancellation

`startGeneration` (puzzle-ultimate `App.tsx` lines 422-530; the ikko
`generate`, lines 397-481, has the same control flow) clears the
published result state at the start of the run (`setGeneratedBlobs([])`,
line 431), accumulates one blob per completed page into a local list,
polls the cancellation flag at the top of each iteration and again
after drawing (breaking out without pushing the in-progress page), and
publishes the local list into the result state only when the flag is
still clear after the loop (lines 516-517).  Pages are abstracted to
their batch indices; the flag is abstracted by the number of fully
completed pages after which it starts reading true. -/

/-- The cancellation flag as a function of progress: with
`signalAfter = some k` the flag reads true from the moment `k` pages
have been completed; `none` means the user never cancels. -/
def cancelFlag (signalAfter : Option ℕ) (completed : ℕ) : Bool :=
  match signalAfter with
  | none => false
  | some k => decide (k ≤ completed)

/-- The page loop: starting at page `b` with `rem` pages still planned,
stop as soon as the flag reads true, otherwise complete page `b` and
continue. -/
def genPages (signalAfter : Option ℕ) : ℕ → ℕ → List ℕ
  | _, 0 => []
  | b, rem + 1 =>
    if cancelFlag signalAfter b then []
    else b :: genPages signalAfter (b + 1) rem

/-- Observable outcome of one `startGeneration` run: the local blob list
as the loop left it, and the published `generatedBlobs` state. -/
structure GenOutcome where
  newBlobs : List ℕ
  published : List ℕ
deriving DecidableEq

/-- One whole `startGeneration` run over `total` planned pages: run the
loop, then publish its result only when the cancellation flag is still
clear (otherwise the state keeps the empty list it was reset to at the
start of the run). -/
def startGenerationModel (total : ℕ) (signalAfter : Option ℕ) : GenOutcome :=
  let blobs := genPages signalAfter 0 total
  { newBlobs := blobs
    published := if cancelFlag signalAfter blobs.length then [] else blobs }

/-! ### Duplicate removal -/

/-- One gallery entry, reduced to the fields `removeDuplicates` looks
at (puzzle-ultimate `types` / `App.tsx`). -/
structure ImageItem where
  id : String
  name : String
  size : ℕ
deriving DecidableEq

/-- The duplicate-identity key `item.name + item.size` (puzzle-ultimate
`App.tsx` line 360): JavaScript string concatenation, coercing the byte
size to its decimal string. -/
def dupKey (item : ImageItem) : String :=
  item.name ++ toString item.size

/-- The `images.forEach` loop of `removeDuplicates` (puzzle-ultimate
`App.tsx` lines 354-373) with the `seen` key set made explicit: keep an
item and record its key when the key is new, drop it otherwise. -/
def removeDuplicatesGo (seen : List String) : List ImageItem → List ImageItem
  | [] => []
  | item :: rest =>
    if seen.contains (dupKey item) then removeDuplicatesGo seen rest
    else item :: removeDuplicatesGo (dupKey item :: seen) rest

/-- `removeDuplicates`, started with an empty `seen` set. -/
def removeDuplicates (images : List ImageItem) : List ImageItem :=
  removeDuplicatesGo [] images

/-- Duplicate removal as the claim reads it: the identity key is the
PAIR `(displayName, byteSize)` rather than the concatenated string.
Used to compare the code's behaviour against that reading. -/
def removeDuplicatesByPairGo (seen : List (String × ℕ)) :
    List ImageItem → List ImageItem
  | [] => []
  | item :: rest =>
    if seen.contains (item.name, item.size) then removeDuplicatesByPairGo seen rest
    else item :: removeDuplicatesByPairGo ((item.name, item.size) :: seen) rest

/-- Pair-keyed duplicate removal, started with an empty `seen` set. -/
def removeDuplicatesByPair (images : List ImageItem) : List ImageItem :=
  removeDuplicatesByPairGo [] images

/-! ### Helper lemmas -/

theorem list_contains_iff {α : Type} [BEq α] [LawfulBEq α] (l : List α) (a : α) :
    l.contains a = true ↔ a ∈ l := by
  simp [List.contains]

theorem contains_ne_true {α : Type} [BEq α] {l : List α} {a : α}
    (h : l.contains a = false) : ¬ (l.contains a = true) := by
  rw [h]
  exact Bool.false_ne_true

theorem repack_enumFrom {α : Type} (s : ℤ) (mask : List ℤ) :
    ∀ (l : List α) (n : ℕ),
      ((List.enumFrom n l).filter
          (fun p => !(mask.contains (s + (p.1 : ℤ))))).map Prod.snd
        = stripRepackSpec s mask n l := by
  intro l
  induction l with
  | nil => intro n; rfl
  | cons x xs ih =>
    intro n
    rw [show List.enumFrom n (x :: xs) = (n, x) :: List.enumFrom (n + 1) xs from rfl]
    cases hc : mask.contains (s + (n : ℤ)) with
    | true =>
      simp only [List.filter_cons, hc, Bool.not_true]
      rw [if_neg Bool.false_ne_true]
      rw [stripRepackSpec, if_pos hc]
      exact ih (n + 1)
    | false =>
      simp only [List.filter_cons, hc, Bool.not_false]
      rw [if_pos trivial]
      rw [stripRepackSpec, if_neg (contains_ne_true hc)]
      rw [List.map_cons, ih (n + 1)]

theorem stripRepackSpec_sublist {α : Type} (s : ℤ) (mask : List ℤ) :
    ∀ (l : List α) (n : ℕ), (stripRepackSpec s mask n l).Sublist l := by
  intro l
  induction l with
  | nil => intro n; simp [stripRepackSpec]
  | cons x xs ih =>
    intro n
    cases hc : mask.contains (s + (n : ℤ)) with
    | true =>
      simp only [stripRepackSpec, hc, if_true]
      exact (ih (n + 1)).cons x
    | false =>
      simp only [stripRepackSpec, hc, Bool.false_eq_true, if_false]
      exact (ih (n + 1)).cons₂ x

theorem genPages_some (k : ℕ) :
    ∀ (rem b : ℕ), genPages (some k) b rem = List.range' b (min rem (k - b)) := by
  intro rem
  induction rem with
  | zero => intro b; simp [genPages]
  | succ rem ih =>
    intro b
    by_cases hb : k ≤ b
    · have h0 : min (rem + 1) (k - b) = 0 := by omega
      simp [genPages, cancelFlag, hb, h0]
    · have h1 : min (rem + 1) (k - b) = min rem (k - (b + 1)) + 1 := by omega
      simp [genPages, cancelFlag, hb, ih, h1, List.range'_succ]

theorem chunks_flatten {α : Type} (P : ℕ) :
    ∀ (k : ℕ) (l : List α), l.length ≤ k * P →
      ((List.range k).map (fun b => (l.drop (b * P)).take P)).flatten = l := by
  intro k
  induction k with
  | zero =>
    intro l h
    have hl : l = [] := List.eq_nil_of_length_eq_zero (by omega)
    subst hl
    rfl
  | succ k ih =>
    intro l h
    rw [List.range_succ_eq_map, List.map_cons, List.map_map, List.flatten_cons]
    rw [show (0 : ℕ) * P = 0 from Nat.zero_mul P, List.drop_zero]
    have ht : ((fun b => (l.drop (b * P)).take P) ∘ Nat.succ)
        = (fun b => (((l.drop P).drop (b * P)).take P)) := by
      funext b
      simp only [Function.comp]
      rw [List.drop_drop]
      have hidx : Nat.succ b * P = P + b * P := by
        rw [Nat.succ_mul]
        omega
      rw [hidx]
    rw [ht]
    have hlen : (l.drop P).length ≤ k * P := by
      rw [List.length_drop]
      have h2 : (k + 1) * P = k * P + P := Nat.succ_mul k P
      omega
    rw [ih (l.drop P) hlen]
    exact List.take_append_drop P l

theorem totalBatches_bounds (n P : ℕ) (hn : 1 ≤ n) (hP : 1 ≤ P) :
    n ≤ totalBatches n P * P ∧ totalBatches n P * P < n + P ∧ 1 ≤ totalBatches n P := by
  have h1 : 1 ≤ totalBatches n P := by
    rw [totalBatches, Nat.one_le_div_iff (show 0 < P by omega)]
    omega
  have hd := Nat.div_add_mod (n + P - 1) P
  have hm : (n + P - 1) % P < P := Nat.mod_lt _ (show 0 < P by omega)
  have hc : totalBatches n P * P = P * ((n + P - 1) / P) := by
    rw [totalBatches, Nat.mul_comm]
  refine ⟨?_, ?_, h1⟩
  · rw [hc]; omega
  · rw [hc]; omega

theorem batchPages_length {α : Type} (l : List α) (P : ℕ) :
    (batchPages l P).length = totalBatches l.length P := by
  simp [batchPages]

theorem batchPages_getD {α : Type} (l : List α) (P i : ℕ)
    (h : i < totalBatches l.length P) :
    (batchPages l P).getD i [] = (l.drop (i * P)).take P := by
  simp [batchPages, List.getD, List.getElem?_map, List.getElem?_range, h]

theorem rdGo_sublist : ∀ (l : List ImageItem) (seen : List String),
    (removeDuplicatesGo seen l).Sublist l := by
  intro l
  induction l with
  | nil => intro seen; simp [removeDuplicatesGo]
  | cons x xs ih =>
    intro seen
    cases hc : seen.contains (dupKey x) with
    | true =>
      simp only [removeDuplicatesGo, hc, if_true]
      exact (ih seen).cons x
    | false =>
      simp only [removeDuplicatesGo, hc, Bool.false_eq_true, if_false]
      exact (ih _).cons₂ x

theorem rdGo_not_seen : ∀ (l : List ImageItem) (seen : List String) (x : ImageItem),
    x ∈ removeDuplicatesGo seen l → dupKey x ∉ seen := by
  intro l
  induction l with
  | nil => intro seen x hx; simp [removeDuplicatesGo] at hx
  | cons y ys ih =>
    intro seen x hx
    cases hc : seen.contains (dupKey y) with
    | true =>
      rw [removeDuplicatesGo, if_pos hc] at hx
      exact ih seen x hx
    | false =>
      rw [removeDuplicatesGo, if_neg (contains_ne_true hc)] at hx
      rcases List.mem_cons.mp hx with hxy | hx2
      · subst hxy
        intro hmem
        exact absurd ((list_contains_iff seen (dupKey x)).mpr hmem) (contains_ne_true hc)
      · have := ih (dupKey y :: seen) x hx2
        intro hmem
        exact this (List.mem_cons_of_mem _ hmem)

theorem rdGo_nodup_keys : ∀ (l : List ImageItem) (seen : List String),
    ((removeDuplicatesGo seen l).map dupKey).Nodup := by
  intro l
  induction l with
  | nil => intro seen; simp [removeDuplicatesGo]
  | cons y ys ih =>
    intro seen
    cases hc : seen.contains (dupKey y) with
    | true =>
      rw [removeDuplicatesGo, if_pos hc]
      exact ih seen
    | false =>
      rw [removeDuplicatesGo, if_neg (contains_ne_true hc)]
      rw [List.map_cons, List.nodup_cons]
      constructor
      · intro hmem
        rcases List.mem_map.mp hmem with ⟨z, hz, hkey⟩
        have := rdGo_not_seen ys (dupKey y :: seen) z hz
        exact this (hkey ▸ List.mem_cons_self _ _)
      · exact ih _

theorem rdGo_key_covered : ∀ (l : List ImageItem) (seen : List String) (x : ImageItem),
    x ∈ l → dupKey x ∉ seen → dupKey x ∈ (removeDuplicatesGo seen l).map dupKey := by
  intro l
  induction l with
  | nil => intro seen x hx; simp at hx
  | cons y ys ih =>
    intro seen x hx hns
    cases hc : seen.contains (dupKey y) with
    | true =>
      rw [removeDuplicatesGo, if_pos hc]
      rcases List.mem_cons.mp hx with hxy | hx2
      · subst hxy
        exact absurd ((list_contains_iff seen (dupKey x)).mp hc) hns
      · exact ih seen x hx2 hns
    | false =>
      rw [removeDuplicatesGo, if_neg (contains_ne_true hc)]
      rw [List.map_cons]
      by_cases hkey : dupKey x = dupKey y
      · rw [hkey]
        exact List.mem_cons_self _ _
      · rcases List.mem_cons.mp hx with hxy | hx2
        · exact absurd (congrArg dupKey hxy) hkey
        · refine List.mem_cons_of_mem _ (ih (dupKey y :: seen) x hx2 ?_)
          intro hmem
          rcases List.mem_cons.mp hmem with h1 | h2
          · exact hkey h1
          · exact hns h2

theorem rdGo_first : ∀ (l : List ImageItem) (seen : List String) (x : ImageItem),
    x ∈ removeDuplicatesGo seen l →
    l.find? (fun y => dupKey y == dupKey x) = some x := by
  intro l
  induction l with
  | nil => intro seen x hx; simp [removeDuplicatesGo] at hx
  | cons y ys ih =>
    intro seen x hx
    cases hc : seen.contains (dupKey y) with
    | true =>
      rw [removeDuplicatesGo, if_pos hc] at hx
      have hxn := rdGo_not_seen ys seen x hx
      have hyk : dupKey y ≠ dupKey x := by
        intro heq
        exact hxn (heq ▸ (list_contains_iff seen (dupKey y)).mp hc)
      have hbeq : (dupKey y == dupKey x) = false := by
        simp [hyk]
      rw [List.find?]
      rw [hbeq]
      exact ih seen x hx
    | false =>
      rw [removeDuplicatesGo, if_neg (contains_ne_true hc)] at hx
      rcases List.mem_cons.mp hx with hxy | hx2
      · subst hxy
        rw [List.find?]
        simp
      · have hxn := rdGo_not_seen ys (dupKey y :: seen) x hx2
        have hyk : dupKey y ≠ dupKey x := by
          intro heq
          exact hxn (heq ▸ List.mem_cons_self _ _)
        have hbeq : (dupKey y == dupKey x) = false := by
          simp [hyk]
        rw [List.find?]
        rw [hbeq]
        exact ih _ x hx2

/-! ### Claim theorems -/

/-- C7: the index parser satisfies, as set-membership equalities over its
returned collection, `parse("5, 12, 1-3") = {1,2,3,5,12}`,
`parse("") = {}`, `parse("3-1") = {1,2,3}` (a reversed range normalises
to `[min,max]`), and `parse("abc, 5") = {5}` (non-numeric tokens are
skipped without raising). -/
theorem parse_mask_indices_contract :
    (∀ n : ℤ, n ∈ parseMaskIndices "5, 12, 1-3" ↔ n ∈ ([1, 2, 3, 5, 12] : List ℤ))
    ∧ parseMaskIndices "" = []
    ∧ parseMaskIndices "3-1" = [1, 2, 3]
    ∧ parseMaskIndices "abc, 5" = [5] := by
  refine ⟨?_, by decide, by decide, by decide⟩
  have h : parseMaskIndices "5, 12, 1-3" = [5, 12, 1, 2, 3] := by decide
  have hp : ([5, 12, 1, 2, 3] : List ℤ).Perm [1, 2, 3, 5, 12] := by decide
  intro n
  rw [h]
  exact hp.mem_iff

/-- C4: the strip-and-repack operation removes exactly the positions whose
sequence number `startNumber + position` is in the mask set, preserving
the relative order of the remaining items (it agrees with the positional
specification `stripRepackSpec` and is a sublist of the input); with
start number 1 and mask set `{2}`, a 5-item gallery yields the 4
remaining items in original order, renumbered contiguously `1,2,3,4`. -/
theorem strip_and_repack_contract :
    (∀ (α : Type) (l : List α) (s : ℤ) (mask : List ℤ),
        repackFilter l s mask = stripRepackSpec s mask 0 l
        ∧ (repackFilter l s mask).Sublist l)
    ∧ repackFilter [10, 20, 30, 40, 50] 1 [2] = [10, 30, 40, 50]
    ∧ ((repackFilter [10, 20, 30, 40, 50] 1 [2]).enum.map
        (fun p => (1 : ℤ) + (p.1 : ℤ))) = [1, 2, 3, 4] := by
  refine ⟨?_, by decide, by decide⟩
  intro α l s mask
  have heq : repackFilter l s mask = stripRepackSpec s mask 0 l :=
    repack_enumFrom s mask l 0
  exact ⟨heq, heq ▸ stripRepackSpec_sublist s mask l 0⟩

/-- C2 (counterexample): in the ikko engine's renderer a cell whose sequence
number is in the mask set receives no mask decoration when the caller's
`applyMask` flag is off (as happens for every repack-mode run), so
membership of `startNumber + globalOffset + i` in the mask set alone
does not imply the decoration. -/
theorem ikko_mask_skipped_when_not_applied :
    (planCellIkko 2 1500 2000 0 1 0 [2] false 1).masked = false
    ∧ ((1 : ℤ) + 0 + 1) ∈ ([2] : List ℤ) := by decide

/-- C2 (amended): in both renderers the item at local index `i` with `c`
columns lands at `(row = i div c, col = i mod c)` at pixel origin
`(col*(w+gap), row*(h+gap))`; in the puzzle-ultimate renderer a cell is
masked iff `startNumber + globalOffset + i` is in the mask set, and in
the ikko renderer iff additionally the run's `applyMask` flag is set; in
the scenario startNumber=1, globalOffset=0, maskIndices={2}, 4 images,
columns=2, exactly cell index 1 (row 0, col 1) is masked. -/
theorem compositor_placement_and_masking :
    (∀ (cols : ℕ) (w h gap s g : ℤ) (mask : List ℤ) (i : ℕ),
        (planCellPU cols w h gap s g mask i).row = i / cols
        ∧ (planCellPU cols w h gap s g mask i).col = i % cols
        ∧ (planCellPU cols w h gap s g mask i).x = ((i % cols : ℕ) : ℤ) * (w + gap)
        ∧ (planCellPU cols w h gap s g mask i).y = ((i / cols : ℕ) : ℤ) * (h + gap)
        ∧ ((planCellPU cols w h gap s g mask i).masked = true
            ↔ s + g + (i : ℤ) ∈ mask))
    ∧ (∀ (cols : ℕ) (w h gap s g : ℤ) (mask : List ℤ) (am : Bool) (i : ℕ),
        ((planCellIkko cols w h gap s g mask am i).masked = true
          ↔ (am = true ∧ s + g + (i : ℤ) ∈ mask)))
    ∧ (renderPlanPU 4 2 1500 2000 0 1 0 [2]).map CellPlan.masked
        = [false, true, false, false]
    ∧ (renderPlanPU 4 2 1500 2000 0 1 0 [2]).map (fun p => (p.row, p.col))
        = [(0, 0), (0, 1), (1, 0), (1, 1)] := by
  refine ⟨?_, ?_, by decide, by decide⟩
  · intro cols w h gap s g mask i
    refine ⟨rfl, rfl, rfl, rfl, ?_⟩
    simp [planCellPU, list_contains_iff]
  · intro cols w h gap s g mask am i
    simp [planCellIkko, list_contains_iff]

/-- C6 (counterexample): in the puzzle-ultimate engine the lossless format
is chosen by the quality PRESET string, not the numeric quality value: a
run with quality 100 but preset "custom" is encoded as JPEG, so quality
100 does not imply a lossless encoding. -/
theorem png_choice_ignores_quality_value :
    (encodeChoicePU "custom" 100).mime = "image/jpeg"
    ∧ ("image/jpeg" : String) ≠ "image/png" := by decide

/-- C6 (amended): in the ikko engine the encoder emits PNG exactly when the
(clamped) export quality value is 100 and otherwise JPEG at quality/100;
in the puzzle-ultimate engine the format is decided by the preset string
(PNG iff it is "1.0") independently of the numeric quality, which is
passed as ratio quality/100 for the lossy format. -/
theorem export_format_selection :
    (∀ q : ℤ, 1 ≤ q → q ≤ 100 →
        (((encodeChoiceIkko q).mime = "image/png") ↔ q = 100)
        ∧ (q ≠ 100 → (encodeChoiceIkko q).ratio = some ((q : ℚ) / 100)))
    ∧ (∀ (preset : String) (q : ℤ),
        (((encodeChoicePU preset q).mime = "image/png") ↔ preset = "1.0")
        ∧ (preset ≠ "1.0" → (encodeChoicePU preset q).ratio = some ((q : ℚ) / 100))) := by
  have hs : ("image/jpeg" : String) ≠ "image/png" := by decide
  constructor
  · intro q h1 h2
    have hng : ¬ q > 100 := by omega
    by_cases hq : q = 100
    · subst hq
      constructor
      · simp [encodeChoiceIkko]
      · intro hne
        exact absurd rfl hne
    · constructor
      · simp only [encodeChoiceIkko, if_neg hng, if_neg hq]
        exact ⟨fun hmime => absurd hmime hs, fun h100 => absurd h100 hq⟩
      · intro _
        simp only [encodeChoiceIkko, if_neg hng, if_neg hq]
  · intro preset q
    by_cases hp : preset = "1.0"
    · subst hp
      constructor
      · simp [encodeChoicePU]
      · intro hne
        exact absurd rfl hne
    · constructor
      · simp only [encodeChoicePU, if_neg hp]
        exact ⟨fun hmime => absurd hmime hs, fun h10 => absurd h10 hp⟩
      · intro _
        simp only [encodeChoicePU, if_neg hp]

/-- C6 (witness): the amended format-selection theorem applied at the
concrete quality 80. -/
theorem export_format_selection_witness :
    (1 : ℤ) ≤ 80 ∧ (80 : ℤ) ≤ 100
    ∧ (((encodeChoiceIkko 80).mime = "image/png") ↔ (80 : ℤ) = 100) :=
  ⟨by decide, by decide, (export_format_selection.1 80 (by decide) (by decide)).1⟩

/-- C10 (counterexample): the duplicate remover keys on the CONCATENATED
string `name + size`, so the distinct identity pairs ("a1", 0) and
("a", 10) collide on the key "a10" and the second item is removed, while
first-occurrence filtering by the pair key would keep both. -/
theorem dedup_conflates_colliding_keys :
    removeDuplicates [⟨"i1", "a1", 0⟩, ⟨"i2", "a", 10⟩] = [⟨"i1", "a1", 0⟩]
    ∧ removeDuplicatesByPair [⟨"i1", "a1", 0⟩, ⟨"i2", "a", 10⟩]
        = [⟨"i1", "a1", 0⟩, ⟨"i2", "a", 10⟩]
    ∧ (⟨"i2", "a", 10⟩ : ImageItem)
        ∉ removeDuplicates [⟨"i1", "a1", 0⟩, ⟨"i2", "a", 10⟩] := by decide

/-- C10 (amended): the duplicate remover keeps, in gallery order, exactly
the first occurrence of each string key `displayName ++ byteSize`: its
output is a sublist of the input (relative order preserved), output keys
are pairwise distinct, every input key is represented, and each kept
item is the first input item carrying its key. -/
theorem remove_duplicates_first_occurrence_by_key (l : List ImageItem) :
    (removeDuplicates l).Sublist l
    ∧ ((removeDuplicates l).map dupKey).Nodup
    ∧ (∀ x ∈ l, dupKey x ∈ (removeDuplicates l).map dupKey)
    ∧ (∀ x ∈ removeDuplicates l, l.find? (fun y => dupKey y == dupKey x) = some x) := by
  refine ⟨rdGo_sublist l [], rdGo_nodup_keys l [], ?_, ?_⟩
  · intro x hx
    exact rdGo_key_covered l [] x hx (by simp)
  · intro x hx
    exact rdGo_first l [] x hx

/-- C10 (witness): the amended duplicate-removal theorem applied to a
concrete two-item gallery with a genuine duplicate. -/
theorem remove_duplicates_witness :
    (⟨"i2", "a", 1⟩ : ImageItem) ∈ ([⟨"i1", "a", 1⟩, ⟨"i2", "a", 1⟩] : List ImageItem)
    ∧ dupKey ⟨"i2", "a", 1⟩
        ∈ (removeDuplicates [⟨"i1", "a", 1⟩, ⟨"i2", "a", 1⟩]).map dupKey :=
  ⟨by decide,
    (remove_duplicates_first_occurrence_by_key [⟨"i1", "a", 1⟩, ⟨"i2", "a", 1⟩]).2.2.1
      ⟨"i2", "a", 1⟩ (by decide)⟩

/-- C1 (counterexample): in the concrete scenario of 3 planned pages with
cancellation signalled after page 1 completes, the loop-local list holds
exactly page 0, but the run publishes NO pages: the result state was
cleared at run start and is re-populated only when the flag is still
clear at the end, so 0 pages are returned, not the claimed 1. -/
theorem cancelled_run_publishes_nothing :
    (startGenerationModel 3 (some 1)).newBlobs = [0]
    ∧ (startGenerationModel 3 (some 1)).published = []
    ∧ (startGenerationModel 3 (some 1)).published.length ≠ 1 := by decide

/-- C1 (amended): when cancellation is signalled after `k ≤ total` pages
have completed, the generation loop's local list holds exactly the `k`
completed pages (none of the abandoned ones), but the operation then
skips publishing, so the published result of the cancelled run is the
empty list. -/
theorem cancellation_keeps_only_completed_pages (total k : ℕ) (h : k ≤ total) :
    (startGenerationModel total (some k)).newBlobs = List.range k
    ∧ (startGenerationModel total (some k)).newBlobs.length = k
    ∧ (startGenerationModel total (some k)).published = [] := by
  have hg : genPages (some k) 0 total = List.range k := by
    rw [genPages_some k total 0]
    have hmin : min total (k - 0) = k := by omega
    rw [hmin, ← List.range_eq_range']
  have hlen : (genPages (some k) 0 total).length = k := by
    rw [hg, List.length_range]
  refine ⟨hg, hlen, ?_⟩
  show (if cancelFlag (some k) (genPages (some k) 0 total).length then ([] : List ℕ)
      else genPages (some k) 0 total) = []
  rw [hlen]
  simp [cancelFlag]

/-- C1 (witness): the amended cancellation theorem at the concrete
scenario of 3 planned pages and a signal after page 1. -/
theorem cancellation_witness :
    (1 : ℕ) ≤ 3
    ∧ ((startGenerationModel 3 (some 1)).newBlobs = List.range 1
        ∧ (startGenerationModel 3 (some 1)).newBlobs.length = 1
        ∧ (startGenerationModel 3 (some 1)).published = []) :=
  ⟨by decide, cancellation_keeps_only_completed_pages 3 1 (by decide)⟩

/-- C3: for an N-item list and page capacity P with N ≥ 1 and P ≥ 1, the
batch partitioner produces exactly `ceil(N/P)` pages (certified by
`N ≤ pages*P < N+P`), every page before the last has exactly P items,
the last page has `N mod P` items (P when P divides N), and
concatenating the pages in order reproduces the input list exactly. -/
theorem batch_partition_contract (α : Type) (l : List α) (P : ℕ)
    (hn : 1 ≤ l.length) (hP : 1 ≤ P) :
    (batchPages l P).length = totalBatches l.length P
    ∧ l.length ≤ (batchPages l P).length * P
    ∧ ((batchPages l P).length - 1) * P < l.length
    ∧ (∀ i, i + 1 < (batchPages l P).length → ((batchPages l P).getD i []).length = P)
    ∧ ((batchPages l P).getD ((batchPages l P).length - 1) []).length
        = (if l.length % P = 0 then P else l.length % P)
    ∧ (batchPages l P).flatten = l := by
  obtain ⟨hb1, hb2, hb3⟩ := totalBatches_bounds l.length P hn hP
  have hlen := batchPages_length l P
  have hsplit : totalBatches l.length P * P
      = (totalBatches l.length P - 1) * P + P := by
    have h1 : totalBatches l.length P = (totalBatches l.length P - 1) + 1 := by omega
    calc totalBatches l.length P * P
        = ((totalBatches l.length P - 1) + 1) * P := by rw [← h1]
      _ = (totalBatches l.length P - 1) * P + P := Nat.succ_mul _ _
  have hlast : (totalBatches l.length P - 1) * P < l.length := by omega
  refine ⟨hlen, ?_, ?_, ?_, ?_, ?_⟩
  · rw [hlen]; exact hb1
  · rw [hlen]; exact hlast
  · intro i hi
    rw [hlen] at hi
    rw [batchPages_getD l P i (by omega)]
    rw [List.length_take, List.length_drop]
    have hip : (i + 1) * P = i * P + P := Nat.succ_mul i P
    have hie : (i + 1) * P ≤ (totalBatches l.length P - 1) * P :=
      Nat.mul_le_mul_right P (by omega)
    rw [Nat.min_eq_left (by omega)]
  · rw [hlen]
    rw [batchPages_getD l P (totalBatches l.length P - 1) (by omega)]
    rw [List.length_take, List.length_drop]
    rw [Nat.min_eq_right (by omega)]
    have hmod : l.length % P = (l.length - (totalBatches l.length P - 1) * P) % P := by
      have hs2 : l.length
          = (l.length - (totalBatches l.length P - 1) * P)
            + (totalBatches l.length P - 1) * P := by omega
      calc l.length % P
          = ((l.length - (totalBatches l.length P - 1) * P)
              + (totalBatches l.length P - 1) * P) % P := by rw [← hs2]
        _ = (l.length - (totalBatches l.length P - 1) * P) % P :=
            Nat.add_mul_mod_self_right _ _ _
    by_cases hLP : l.length - (totalBatches l.length P - 1) * P = P
    · have h0 : l.length % P = 0 := by
        rw [hmod, hLP]
        exact Nat.mod_self P
      rw [if_pos h0, hLP]
    · have hlt : l.length - (totalBatches l.length P - 1) * P < P := by omega
      have hmod2 : l.length % P = l.length - (totalBatches l.length P - 1) * P := by
        rw [hmod]
        exact Nat.mod_eq_of_lt hlt
      rw [if_neg (by omega)]
      omega
  · exact chunks_flatten P (totalBatches l.length P) l hb1

/-- C3 (witness): the partition contract at a concrete 5-item list with
page capacity 2. -/
theorem batch_partition_witness :
    1 ≤ ([10, 20, 30, 40, 50] : List ℕ).length ∧ 1 ≤ 2
    ∧ (batchPages [10, 20, 30, 40, 50] 2).flatten = [10, 20, 30, 40, 50] :=
  ⟨by decide, by decide,
    (batch_partition_contract ℕ [10, 20, 30, 40, 50] 2 (by decide) (by decide)).2.2.2.2.2⟩

/-- C5 (counterexample): for a cell height taller than the safe height
(possible with extreme custom aspect ratios) the clamp to a minimum of
one row makes the auto row count violate the claimed bound
`rows * (cellHeight + gap) ≤ safeHeight + gap`: at cellHeight 15501 and
gap 0 the computed count is 1 yet `1 * 15501 > 15500`. -/
theorem auto_rows_overshoot_for_tall_cell :
    (1 : ℚ) ≤ 15501 ∧ (0 : ℚ) ≤ 0
    ∧ ¬ ((autoRowsFromCellHeight 15501 0 : ℚ) * (15501 + 0) ≤ SAFE_H + 0) := by
  have h : autoRowsFromCellHeight 15501 0 = 1 := by
    simp only [autoRowsFromCellHeight, SAFE_H]
    norm_num
  refine ⟨by norm_num, le_refl 0, ?_⟩
  rw [h]
  simp only [SAFE_H]
  norm_num

/-- C5 (amended): for every cell height with `1 ≤ cellHeight ≤ safeHeight`
and gap ≥ 0, the auto row count equals the plain floor (the clamp to 1
is inactive), is at least 1, satisfies
`rows * (cellHeight + gap) ≤ safeHeight + gap`, and is maximal:
`(rows + 1) * (cellHeight + gap) > safeHeight + gap`.  (Only the
clamped case `cellHeight > safeHeight` violates the bound.) -/
theorem auto_row_count_maximality (cH gap : ℚ) (h1 : 1 ≤ cH) (h2 : 0 ≤ gap)
    (h3 : cH ≤ SAFE_H) :
    1 ≤ autoRowsFromCellHeight cH gap
    ∧ autoRowsFromCellHeight cH gap = ⌊(SAFE_H + gap) / (cH + gap)⌋
    ∧ (autoRowsFromCellHeight cH gap : ℚ) * (cH + gap) ≤ SAFE_H + gap
    ∧ SAFE_H + gap < ((autoRowsFromCellHeight cH gap : ℚ) + 1) * (cH + gap) := by
  have hD : (0 : ℚ) < cH + gap := by linarith
  have hq1 : (1 : ℚ) ≤ (SAFE_H + gap) / (cH + gap) := by
    rw [le_div_iff₀ hD]
    linarith
  have hfl : (1 : ℤ) ≤ ⌊(SAFE_H + gap) / (cH + gap)⌋ := by
    apply Int.le_floor.mpr
    exact_mod_cast hq1
  have heq : autoRowsFromCellHeight cH gap = ⌊(SAFE_H + gap) / (cH + gap)⌋ := by
    rw [autoRowsFromCellHeight, max_eq_right hfl]
  refine ⟨by rw [heq]; exact hfl, heq, ?_, ?_⟩
  · rw [heq]
    have hle := Int.floor_le ((SAFE_H + gap) / (cH + gap))
    calc (⌊(SAFE_H + gap) / (cH + gap)⌋ : ℚ) * (cH + gap)
        ≤ ((SAFE_H + gap) / (cH + gap)) * (cH + gap) :=
          mul_le_mul_of_nonneg_right hle (le_of_lt hD)
      _ = SAFE_H + gap := div_mul_cancel₀ _ (ne_of_gt hD)
  · rw [heq]
    have hlt := Int.lt_floor_add_one ((SAFE_H + gap) / (cH + gap))
    calc SAFE_H + gap
        = ((SAFE_H + gap) / (cH + gap)) * (cH + gap) :=
          (div_mul_cancel₀ _ (ne_of_gt hD)).symm
      _ < ((⌊(SAFE_H + gap) / (cH + gap)⌋ : ℚ) + 1) * (cH + gap) :=
          mul_lt_mul_of_pos_right hlt hD

/-- C5 (witness): the amended auto-row theorem at cell height 100 and
gap 0. -/
theorem auto_row_count_witness :
    (1 : ℚ) ≤ 100 ∧ (0 : ℚ) ≤ 0 ∧ (100 : ℚ) ≤ SAFE_H
    ∧ (autoRowsFromCellHeight 100 0 : ℚ) * (100 + 0) ≤ SAFE_H + 0 :=
  ⟨by decide, by decide, by decide,
    (auto_row_count_maximality 100 0 (by decide) (by decide) (by decide)).2.2.1⟩

/-- C8: when the summed page height exceeds the safe height ceiling 28000
or the pixel count exceeds 80 megapixels, the combine step uses the
single uniform scale `min(28000/totalH, scaleP)` (`scaleP` standing for
the square root of the pixel-limit ratio), both final dimensions are
floors of the original dimensions times that one scale (no distortion),
and the final height never exceeds the ceiling. -/
theorem combine_downscale_contract (maxW totalH : ℕ) (scaleP : ℚ)
    (hH : 0 < totalH) (htrig : 28000 < totalH ∨ 80000000 < maxW * totalH) :
    (combinePlan maxW totalH scaleP).scale = min (28000 / (totalH : ℚ)) scaleP
    ∧ (combinePlan maxW totalH scaleP).finalW
        = ⌊(maxW : ℚ) * (combinePlan maxW totalH scaleP).scale⌋
    ∧ (combinePlan maxW totalH scaleP).finalH
        = ⌊(totalH : ℚ) * (combinePlan maxW totalH scaleP).scale⌋
    ∧ (combinePlan maxW totalH scaleP).finalH ≤ 28000 := by
  have hq : (0 : ℚ) < (totalH : ℚ) := by exact_mod_cast hH
  have htrigQ : 28000 < (totalH : ℚ) ∨ 80000000 < (maxW : ℚ) * (totalH : ℚ) := by
    rcases htrig with hcase | hcase
    · left; exact_mod_cast hcase
    · right; exact_mod_cast hcase
  have hplan : combinePlan maxW totalH scaleP =
      { scale := min (28000 / (totalH : ℚ)) scaleP
        finalW := ⌊(maxW : ℚ) * min (28000 / (totalH : ℚ)) scaleP⌋
        finalH := ⌊(totalH : ℚ) * min (28000 / (totalH : ℚ)) scaleP⌋ } := by
    rw [combinePlan, if_pos htrigQ]
  rw [hplan]
  refine ⟨rfl, rfl, rfl, ?_⟩
  have hb : (totalH : ℚ) * min (28000 / (totalH : ℚ)) scaleP ≤ 28000 := by
    calc (totalH : ℚ) * min (28000 / (totalH : ℚ)) scaleP
        ≤ (totalH : ℚ) * (28000 / (totalH : ℚ)) :=
          mul_le_mul_of_nonneg_left (min_le_left _ _) (le_of_lt hq)
      _ = 28000 := by
          rw [mul_comm]
          exact div_mul_cancel₀ _ (ne_of_gt hq)
  calc ⌊(totalH : ℚ) * min (28000 / (totalH : ℚ)) scaleP⌋
      ≤ ⌊(28000 : ℚ)⌋ := Int.floor_le_floor hb
    _ = 28000 := by norm_num

/-- C8 (witness): the combine-downscale contract at a concrete run of
pages 1000 pixels wide summing to 56000 pixels of height. -/
theorem combine_downscale_witness :
    0 < 56000 ∧ ((28000 : ℕ) < 56000 ∨ 80000000 < 1000 * 56000)
    ∧ (combinePlan 1000 56000 (1 / 4)).finalH ≤ 28000 :=
  ⟨by decide, Or.inl (by decide),
    (combine_downscale_contract 1000 56000 (1 / 4) (by decide)
      (Or.inl (by decide))).2.2.2⟩

/-- C9 (counterexample): beyond the width threshold the computed cell
width is NOT strictly decreasing in the column count: at gap 0 both 127
and 128 columns (each with `cols * 1500 > 8192`) give cell width 64, so
increasing the column count does not strictly decrease cell width. -/
theorem cell_width_plateau :
    (127 : ℤ) < 128
    ∧ (127 : ℤ) * 1500 > MAX_CANVAS_DIMENSION
    ∧ (128 : ℤ) * 1500 > MAX_CANVAS_DIMENSION
    ∧ (calculateCellDimensions 128 (3 / 4) 0).1 = (calculateCellDimensions 127 (3 / 4) 0).1 := by
  have h127 : calcCellW 127 0 = 64 := by
    rw [calcCellW, if_pos (by decide)]
    rw [Int.floor_eq_iff]
    norm_num [MAX_CANVAS_DIMENSION]
  have h128 : calcCellW 128 0 = 64 := by
    rw [calcCellW, if_pos (by decide)]
    rw [Int.floor_eq_iff]
    norm_num [MAX_CANVAS_DIMENSION]
  refine ⟨by decide, by decide, by decide, ?_⟩
  show calcCellW 128 0 = calcCellW 127 0
  rw [h127, h128]

/-- C9 (amended): beyond the threshold `cols * 1500 > 8192` the computed
cell width is antitone (weakly decreasing) in the column count for any
fixed gap ≥ 0; and for columns 3, aspect ratio 3/4, gap 0 the planner
returns cell width 1500 and height 2000, whose ratio is exactly 3/4. -/
theorem cell_width_antitone_and_aspect :
    (∀ (c1 c2 gap : ℤ) (r : ℚ), 0 < c1 → c1 ≤ c2 → 0 ≤ gap →
        c1 * 1500 > MAX_CANVAS_DIMENSION →
        (calculateCellDimensions c2 r gap).1 ≤ (calculateCellDimensions c1 r gap).1)
    ∧ (calculateCellDimensions 3 (3 / 4) 0).1 = 1500
    ∧ (calculateCellDimensions 3 (3 / 4) 0).2 = 2000
    ∧ ((1500 : ℚ) / 2000 = 3 / 4) := by
  have h3 : calcCellW 3 0 = 1500 := by
    rw [calcCellW, if_neg (by decide)]
  refine ⟨?_, h3, ?_, by norm_num⟩
  · intro c1 c2 gap r h1 h2 hg h4
    have hmul : c1 * 1500 ≤ c2 * 1500 := mul_le_mul_of_nonneg_right h2 (by norm_num)
    have h5 : c2 * 1500 > MAX_CANVAS_DIMENSION := lt_of_lt_of_le h4 hmul
    show calcCellW c2 gap ≤ calcCellW c1 gap
    rw [calcCellW, if_pos h5, calcCellW, if_pos h4]
    apply Int.floor_le_floor
    have hc1Q : (0 : ℚ) < (c1 : ℚ) := by exact_mod_cast h1
    have hc2Q : (0 : ℚ) < (c2 : ℚ) := by exact_mod_cast lt_of_lt_of_le h1 h2
    have hleQ : (c1 : ℚ) ≤ (c2 : ℚ) := by exact_mod_cast h2
    simp only [MAX_CANVAS_DIMENSION]
    push_cast
    rw [sub_div, sub_div,
      mul_div_cancel_left₀ (gap : ℚ) (ne_of_gt hc2Q),
      mul_div_cancel_left₀ (gap : ℚ) (ne_of_gt hc1Q)]
    exact sub_le_sub_right (div_le_div_of_nonneg_left (by norm_num) hc1Q hleQ) _
  · show ⌊(calcCellW 3 0 : ℚ) / (3 / 4)⌋ = 2000
    rw [h3]
    norm_num

/-- C9 (witness): the antitone part of the dimension-planner theorem at
columns 6 and 7 with gap 0. -/
theorem cell_width_antitone_witness :
    (0 : ℤ) < 6 ∧ (6 : ℤ) ≤ 7 ∧ (0 : ℤ) ≤ 0
    ∧ (6 : ℤ) * 1500 > MAX_CANVAS_DIMENSION
    ∧ (calculateCellDimensions 7 (3 / 4) 0).1 ≤ (calculateCellDimensions 6 (3 / 4) 0).1 :=
  ⟨by decide, by decide, by decide, by decide,
    cell_width_antitone_and_aspect.1 6 7 0 (3 / 4) (by decide) (by decide)
      (by decide) (by decide)⟩

end PuzzleGrid
